import Mathlib

/-!
Verification of the Nyxar streaming-indicator library
(src/algorithm/operators.py) and the order/trade lifecycle model
(src/backtest/Order.py).

Embedding conventions.
Python floats are embedded as rationals; float division is exact
division on the rationals (every divisor occurring in the verified
runs is nonzero).  Timestamps are integers.  Each internal update
function takes the current exchange time as an explicit argument,
modelling the read of the exchange clock inside get_feed.  A Python
deque of maxlen m is embedded as a list together with the explicit
eviction the source performs; for SMA, EMA and Sigma the popleft in
the update keeps the queue at length at most the window size, so the
maxlen bound of the deque never triggers for window sizes of at
least one, and it is therefore not modelled there.  math.sqrt is
embedded as an abstract function on the rationals (CPython returns a
correctly rounded float, a function of the operand); feeding a
negative operand raises ValueError, modelled as an error result.
A Python AssertionError or ValueError is modelled as Except.error.
The guard reads the exchange clock through a name-mangled attribute;
the exchange class is outside the verified sources, and the spec
describes the read as the current simulated timestamp, which is how
it is embedded here: each update receives the current time and
compares it with the stored last_timestamp.
-/

namespace Nyxar

/-! ## SMA (operators.py, class SMA, get_feed at lines 100-113) -/

structure SMAState where
  price_queue : List ℚ
  sma : Option ℚ
  last_timestamp : ℤ
deriving DecidableEq

def SMAState.start : SMAState := ⟨[], none, 0⟩

/-- Translation of SMA.get_feed.  Note that the warm-up branch
(queue shorter than the window) returns early and does not update
last_timestamp, exactly as lines 106-107 of the source.  The final
match arm is unreachable for window sizes of at least one (in the
source it would be a TypeError on None arithmetic). -/
def smaFeed (w : ℕ) (s : SMAState) (t : ℤ) (v : ℚ) : SMAState × Option ℚ :=
  if s.last_timestamp = t then (s, s.sma)
  else
    let q := s.price_queue ++ [v]
    if q.length < w then ({ s with price_queue := q }, s.sma)
    else if q.length = w then
      let m := q.sum / (w : ℚ)
      (⟨q, some m, t⟩, some m)
    else
      match q, s.sma with
      | old :: rest, some m =>
        let m2 := m + (v - old) / (w : ℚ)
        (⟨rest, some m2, t⟩, some m2)
      | _, _ => (s, s.sma)

def smaRunAux (w : ℕ) : ℤ → SMAState → List ℚ → SMAState
  | _, s, [] => s
  | t, s, v :: vs => smaRunAux w (t + 1) (smaFeed w s t v).1 vs

/-- Feed the sequence vs at the distinct timestamps 1, 2, 3, ... -/
def smaRunSt (w : ℕ) (vs : List ℚ) : SMAState :=
  smaRunAux w 1 SMAState.start vs

/-! ## EMA (operators.py, class EMA, get_feed at lines 65-78) -/

structure EMAState where
  price_queue : List ℚ
  ema : Option ℚ
  last_timestamp : ℤ
deriving DecidableEq

def EMAState.start : EMAState := ⟨[], none, 0⟩

/-- Translation of EMA.get_feed.  The multiplier is 2 / (1 + w) as
set in the constructor.  The update after seeding is
ema + (value - evicted) * multiplier, using the value popped from
the left of the queue (line 76 of the source).  As in SMA, the
warm-up branch does not update last_timestamp. -/
def emaFeed (w : ℕ) (s : EMAState) (t : ℤ) (v : ℚ) : EMAState × Option ℚ :=
  if s.last_timestamp = t then (s, s.ema)
  else
    let q := s.price_queue ++ [v]
    if q.length < w then ({ s with price_queue := q }, s.ema)
    else if q.length = w then
      let m := q.sum / (w : ℚ)
      (⟨q, some m, t⟩, some m)
    else
      match q, s.ema with
      | old :: rest, some m =>
        let m2 := m + (v - old) * (2 / (1 + (w : ℚ)))
        (⟨rest, some m2, t⟩, some m2)
      | _, _ => (s, s.ema)

def emaRunAux (w : ℕ) : ℤ → EMAState → List ℚ → EMAState
  | _, s, [] => s
  | t, s, v :: vs => emaRunAux w (t + 1) (emaFeed w s t v).1 vs

def emaRunSt (w : ℕ) (vs : List ℚ) : EMAState :=
  emaRunAux w 1 EMAState.start vs

/-! ## SMMA (operators.py, class SMMA, get_feed at lines 138-148) -/

structure SMMAState where
  smma : Option ℚ
  last_timestamp : ℤ
deriving DecidableEq

def SMMAState.start : SMMAState := ⟨none, 0⟩

/-- Translation of SMMA.get_feed: the first feed seeds smma with the
value itself; later feeds apply (smma * (w - 1) + value) / w.  The
last_timestamp is updated on every non-guarded call. -/
def smmaFeed (w : ℕ) (s : SMMAState) (t : ℤ) (v : ℚ) : SMMAState × Option ℚ :=
  if s.last_timestamp = t then (s, s.smma)
  else
    match s.smma with
    | none => (⟨some v, t⟩, some v)
    | some m =>
      let m2 := (m * ((w : ℚ) - 1) + v) / (w : ℚ)
      (⟨some m2, t⟩, some m2)

def smmaRunAux (w : ℕ) : ℤ → SMMAState → List ℚ → SMMAState
  | _, s, [] => s
  | t, s, v :: vs => smmaRunAux w (t + 1) (smmaFeed w s t v).1 vs

def smmaRunSt (w : ℕ) (vs : List ℚ) : SMMAState :=
  smmaRunAux w 1 SMMAState.start vs

/-! ## Sigma (operators.py, class Sigma, get_feed at lines 182-203) -/

structure SigmaState where
  price_queue : List ℚ
  price_queue_sq : List ℚ
  price_sum : Option ℚ
  price_sum_sq : Option ℚ
  sigma : Option ℚ
  last_timestamp : ℤ
deriving DecidableEq

def SigmaState.start : SigmaState := ⟨[], [], none, none, none, 0⟩

/-- Translation of Sigma.get_feed, parametrised by the float square
root function f.  The source sets last_timestamp first (line 187),
appends value and its square, checks the two queue lengths agree
(diagnostic branch, lines 190-192), then either warms up, seeds the
running sums from the full queues, or updates them incrementally
with the two popped values.  Line 202 then computes
sqrt((price_sum_sq - price_sum ^ 2) / (w - 1)); a negative operand
raises ValueError, which leaves sigma unset but the queues, sums and
timestamp already mutated.  The final match arm is unreachable. -/
def sigmaFeed (f : ℚ → ℚ) (w : ℕ) (s : SigmaState) (t : ℤ) (v : ℚ) :
    SigmaState × Except Unit (Option ℚ) :=
  if s.last_timestamp = t then (s, Except.ok s.sigma)
  else
    let q := s.price_queue ++ [v]
    let qsq := s.price_queue_sq ++ [v ^ 2]
    if q.length ≠ qsq.length then
      ({ s with price_queue := q, price_queue_sq := qsq, last_timestamp := t },
       Except.ok s.sigma)
    else if q.length < w then
      ({ s with price_queue := q, price_queue_sq := qsq, last_timestamp := t },
       Except.ok s.sigma)
    else if q.length = w then
      let ps := q.sum
      let pss := qsq.sum
      let rad := (pss - ps ^ 2) / ((w : ℚ) - 1)
      if rad < 0 then
        (⟨q, qsq, some ps, some pss, s.sigma, t⟩, Except.error ())
      else
        let sg := f rad
        (⟨q, qsq, some ps, some pss, some sg, t⟩, Except.ok (some sg))
    else
      match q, qsq, s.price_sum, s.price_sum_sq with
      | old :: q2, oldsq :: qsq2, some ps0, some pss0 =>
        let ps := ps0 + (v - old)
        let pss := pss0 + (v ^ 2 - oldsq)
        let rad := (pss - ps ^ 2) / ((w : ℚ) - 1)
        if rad < 0 then
          (⟨q2, qsq2, some ps, some pss, s.sigma, t⟩, Except.error ())
        else
          let sg := f rad
          (⟨q2, qsq2, some ps, some pss, some sg, t⟩, Except.ok (some sg))
      | _, _, _, _ => (s, Except.ok s.sigma)

def sigmaRunAux (f : ℚ → ℚ) (w : ℕ) :
    ℤ → SigmaState → List ℚ → SigmaState × List (Except Unit (Option ℚ))
  | _, s, [] => (s, [])
  | t, s, v :: vs =>
    let fs := sigmaFeed f w s t v
    let rest := sigmaRunAux f w (t + 1) fs.1 vs
    (rest.1, fs.2 :: rest.2)

def sigmaRun (f : ℚ → ℚ) (w : ℕ) (vs : List ℚ) :
    SigmaState × List (Except Unit (Option ℚ)) :=
  sigmaRunAux f w 1 SigmaState.start vs

/-! ## ATR (operators.py, class ATR, get at lines 381-391 and
get_feed at lines 393-406) -/

structure ATRState where
  previous_close : Option ℚ
  tr_queue : List ℚ
  atr : Option ℚ
  last_timestamp : ℤ
deriving DecidableEq

def ATRState.start : ATRState := ⟨none, [], none, 0⟩

/-- Translation of ATR.get_feed.  The true-range deque has maxlen
w + 1 and, unlike SMA, nothing is popped in the smoothed branch, so
the deque eviction does trigger once the queue is full. -/
def atrFeed (w : ℕ) (s : ATRState) (t : ℤ) (v : ℚ) : ATRState × Option ℚ :=
  if s.last_timestamp = t then (s, s.atr)
  else
    let q0 := if s.tr_queue.length = w + 1 then s.tr_queue.tail else s.tr_queue
    let q := q0 ++ [v]
    if q.length < w then
      ({ s with tr_queue := q, last_timestamp := t }, s.atr)
    else if q.length = w then
      let m := q.sum / (w : ℚ)
      ({ s with tr_queue := q, atr := some m, last_timestamp := t }, some m)
    else
      match s.atr with
      | some m =>
        let m2 := (m * ((w : ℚ) - 1) + v) / (w : ℚ)
        ({ s with tr_queue := q, atr := some m2, last_timestamp := t }, some m2)
      | none => ({ s with tr_queue := q, last_timestamp := t }, s.atr)

/-- Translation of ATR.get on one ticker reading (close, high, low).
The very first call only seeds previous_close and returns None; the
source never updates previous_close afterwards (lines 383-385), a
behaviour preserved here.  math.fabs is embedded as the absolute
value on the rationals. -/
def atrGet (w : ℕ) (s : ATRState) (t : ℤ) (tick : ℚ × ℚ × ℚ) : ATRState × Option ℚ :=
  match s.previous_close with
  | none => ({ s with previous_close := some tick.1 }, none)
  | some pc =>
    let high := tick.2.1
    let low := tick.2.2
    let tr := max |high - low| (max |high - pc| |pc - low|)
    atrFeed w s t tr

def atrRunAux (w : ℕ) : ℤ → ATRState → List (ℚ × ℚ × ℚ) → ATRState
  | _, s, [] => s
  | t, s, x :: xs => atrRunAux w (t + 1) (atrGet w s t x).1 xs

def atrRunSt (w : ℕ) (ticks : List (ℚ × ℚ × ℚ)) : ATRState :=
  atrRunAux w 1 ATRState.start ticks

/-! ## Stochastic Oscillator (operators.py, class StochasticOscillator,
constructor at lines 245-255 and get_feed at lines 261-279) -/

/-- Python round to the nearest integer, ties to even (the operand of
the library round is embedded exactly as a rational). -/
def roundHalfEven (q : ℚ) : ℤ :=
  let f := ⌊q⌋
  let r := q - (f : ℚ)
  if r < 1 / 2 then f
  else if 1 / 2 < r then f + 1
  else if f % 2 = 0 then f else f + 1

/-- Python round(x, 2). -/
def pyRound2 (q : ℚ) : ℚ := ((roundHalfEven (100 * q) : ℚ)) / 100

/-- Minimum of a list, as the Python builtin min on a nonempty
iterable (the source only applies it to the full 14-element queue). -/
def minList : List ℚ → ℚ
  | [] => 0
  | x :: xs => xs.foldl min x

/-- Maximum of a list, as the Python builtin max. -/
def maxList : List ℚ → ℚ
  | [] => 0
  | x :: xs => xs.foldl max x

structure StochState where
  low_14 : Option ℚ
  high_14 : Option ℚ
  price_queue : List ℚ
  percent_k : Option ℚ
  past_oscillator : List ℚ
  percent_d : Option ℚ
  stochastic_oscillator : Option ℚ
  last_timestamp : ℤ
deriving DecidableEq

def StochState.start : StochState := ⟨none, none, [], none, [], none, none, 0⟩

/-- Translation of StochasticOscillator.get_feed.  Once 14 closes
have been stored, the source takes min and max of the queue before
appending the current close (the close-price deque has maxlen 14, so
the append evicts the oldest element), computes the oscillator
rounded to 2 decimals into the attribute stochastic_oscillator, and
pushes it on the 3-element deque past_oscillator; percent_d becomes
the rounded mean of that deque once it holds 3 values.  The
attribute percent_k, initialised to None in the constructor, is
never assigned anywhere in the class, yet the return value is the
pair (percent_k, percent_d).  A flat window (high equal to low)
raises ZeroDivisionError before the timestamp is updated. -/
def stochFeed (s : StochState) (t : ℤ) (v : ℚ) :
    StochState × Except Unit (Option ℚ × Option ℚ) :=
  if s.last_timestamp = t then (s, Except.ok (s.percent_k, s.percent_d))
  else if s.price_queue.length < 14 then
    ({ s with price_queue := s.price_queue ++ [v], last_timestamp := t },
     Except.ok (s.percent_k, s.percent_d))
  else
    let low := minList s.price_queue
    let high := maxList s.price_queue
    let q := s.price_queue.tail ++ [v]
    if high = low then
      ({ s with low_14 := some low, high_14 := some high, price_queue := q },
       Except.error ())
    else
      let osc := pyRound2 ((v - low) / (high - low) * 100)
      let po := (if s.past_oscillator.length = 3 then s.past_oscillator.tail
                 else s.past_oscillator) ++ [osc]
      let pd := if po.length = 3 then some (pyRound2 (po.sum / 3)) else s.percent_d
      (⟨some low, some high, q, s.percent_k, po, pd, some osc, t⟩,
       Except.ok (s.percent_k, pd))

def stochRunAux : ℤ → StochState → List ℚ →
    StochState × List (Except Unit (Option ℚ × Option ℚ))
  | _, s, [] => (s, [])
  | t, s, v :: vs =>
    let fs := stochFeed s t v
    let rest := stochRunAux (t + 1) fs.1 vs
    (rest.1, fs.2 :: rest.2)

def stochRun (vs : List ℚ) : StochState × List (Except Unit (Option ℚ × Option ℚ)) :=
  stochRunAux 1 StochState.start vs

/-! ## Order model (src/backtest/Order.py) -/

inductive OrderSide where
  | Buy
  | Sell
deriving DecidableEq

inductive OrderType where
  | Limit
  | Market
deriving DecidableEq

inductive OrderStatus where
  | Submitted
  | Open
  | Filled
  | Cancelled
deriving DecidableEq

/-- Transaction (Order.py lines 106-131).  The constructor performs
no validation at all; in particular the amount may be negative.  The
derived datetime and id strings are presentation-only and omitted. -/
structure Transaction where
  timestamp : ℤ
  side : OrderSide
  quote_name : String
  base_name : String
  amount : ℚ
  price : ℚ
deriving DecidableEq

/-- Order record (Order.py lines 134-160).  The requested amount is
asserted to be an integer in the constructor, hence the constructor
below takes it as an integer; it is stored next to the rational
filled counter. -/
structure Order where
  timestamp : ℤ
  status : OrderStatus
  type : OrderType
  side : OrderSide
  quote_name : String
  base_name : String
  amount : ℚ
  price : ℚ
  filled : ℚ
  transactions : List Transaction
  fee : List (String × ℚ)
deriving DecidableEq

/-- Order construction (Order.py lines 135-160).  The asserts on
lines 137-142 are type checks, discharged by the embedding types.
Line 143 asserts a nonnegative amount for every order type; lines
144-145 assert a nonnegative price only when the order type is
Limit.  An assertion failure is Except.error. -/
def mkOrder (quote_name base_name : String) (price : ℚ) (amount : ℤ)
    (order_type : OrderType) (side : OrderSide) (timestamp : ℤ) :
    Except Unit Order :=
  if amount < 0 then Except.error ()
  else if order_type = OrderType.Limit ∧ price < 0 then Except.error ()
  else Except.ok
    { timestamp := timestamp
      status := OrderStatus.Submitted
      type := order_type
      side := side
      quote_name := quote_name
      base_name := base_name
      amount := (amount : ℚ)
      price := price
      filled := 0
      transactions := []
      fee := [] }

/-- Order.cancel (lines 214-215): unconditionally sets the status to
Cancelled, whatever the current status is. -/
def cancelOrder (o : Order) : Order := { o with status := OrderStatus.Cancelled }

/-- Order.open (lines 217-219): asserts the order is not a Market
order, then sets the status to Open, whatever the current status. -/
def openOrder (o : Order) : Except Unit Order :=
  if o.type = OrderType.Market then Except.error ()
  else Except.ok { o with status := OrderStatus.Open }

/-- Order.generate_transaction (lines 221-227). -/
def generateTransaction (o : Order) (amount price : ℚ) (timestamp : ℤ) : Transaction :=
  { timestamp := timestamp
    side := o.side
    quote_name := o.quote_name
    base_name := o.base_name
    amount := amount
    price := price }

/-- Order.execute_transaction (lines 229-249).  Both arms of the
side branch perform the same mutation: filled is increased by the
transaction amount and the transaction is appended to the history.
Only then is the invariant amount - filled >= 0 asserted, so on a
violation the returned state is already mutated.  When the order
becomes exactly full the status flips to Filled and True is
returned, otherwise False. -/
def executeTransaction (o : Order) (tx : Transaction) : Order × Except Unit Bool :=
  let o1 := { o with filled := o.filled + tx.amount
                     transactions := o.transactions ++ [tx] }
  if o1.amount - o1.filled < 0 then (o1, Except.error ())
  else if o1.amount - o1.filled = 0 then
    ({ o1 with status := OrderStatus.Filled }, Except.ok true)
  else (o1, Except.ok false)

/-- Order.pay_fee (lines 251-255) on the fee mapping, embedded as an
association list. -/
def feeUpdate : List (String × ℚ) → String → ℚ → List (String × ℚ)
  | [], asset, amt => [(asset, amt)]
  | (a, x) :: rest, asset, amt =>
    if a = asset then (a, x + amt) :: rest else (a, x) :: feeUpdate rest asset amt

def payFee (o : Order) (asset : String) (amt : ℚ) : Order :=
  { o with fee := feeUpdate o.fee asset amt }

/-- The orders reachable through the public interface of Order.py
when every executed transaction carries a nonnegative amount and
every call returns without an assertion failure. -/
inductive ReachableOrder : Order → Prop where
  | init : ∀ (qn bn : String) (p : ℚ) (a : ℤ) (ty : OrderType) (sd : OrderSide)
      (ts : ℤ) (o : Order), mkOrder qn bn p a ty sd ts = Except.ok o → ReachableOrder o
  | cancelStep : ∀ o, ReachableOrder o → ReachableOrder (cancelOrder o)
  | openStep : ∀ o o2, ReachableOrder o → openOrder o = Except.ok o2 → ReachableOrder o2
  | feeStep : ∀ o asset amt, ReachableOrder o → ReachableOrder (payFee o asset amt)
  | execStep : ∀ o tx, ReachableOrder o → 0 ≤ tx.amount →
      (executeTransaction o tx).2 ≠ Except.error () →
      ReachableOrder (executeTransaction o tx).1

/-! ## Bufferless standard EMA -/

/-- Modelled from the spec: the bufferless standard EMA recurrence
that uses only the previous EMA value, seeded identically to SMA at
the w-th sample with the plain average of the first w samples, then
updated by ema + (new - ema) * k with k = 2 / (w + 1).  This is the
reference point of the refinement claim about the buffered EMA. -/
structure StdEMAState where
  count : ℕ
  acc : ℚ
  ema : Option ℚ
deriving DecidableEq

def stdEmaFeed (w : ℕ) (s : StdEMAState) (v : ℚ) : StdEMAState :=
  match s.ema with
  | none =>
    let acc := s.acc + v
    let n := s.count + 1
    if n = w then ⟨n, acc, some (acc / (w : ℚ))⟩ else ⟨n, acc, none⟩
  | some m => ⟨s.count + 1, s.acc, some (m + (v - m) * (2 / ((w : ℚ) + 1)))⟩

def stdEmaRun (w : ℕ) (vs : List ℚ) : StdEMAState :=
  vs.foldl (stdEmaFeed w) ⟨0, 0, none⟩

/-! ## Concrete fixtures used by the lifecycle theorems -/

/-- The order produced by constructing a Limit Buy order of amount
10 at price 1 and timestamp 0. -/
def sampleLimitOrder : Order :=
  { timestamp := 0
    status := OrderStatus.Submitted
    type := OrderType.Limit
    side := OrderSide.Buy
    quote_name := "ETH"
    base_name := "BTC"
    amount := 10
    price := 1
    filled := 0
    transactions := []
    fee := [] }

def tx4 : Transaction := generateTransaction sampleLimitOrder 4 1 1

def tx6 : Transaction := generateTransaction sampleLimitOrder 6 1 2

/-- The order produced by constructing a Market Buy order of amount
5 at the negative price -1. -/
def sampleMarketOrder : Order :=
  { timestamp := 0
    status := OrderStatus.Submitted
    type := OrderType.Market
    side := OrderSide.Buy
    quote_name := "ETH"
    base_name := "BTC"
    amount := 5
    price := -1
    filled := 0
    transactions := []
    fee := [] }

lemma mkOrder_sampleLimit :
    mkOrder ("ETH") ("BTC") 1 10 OrderType.Limit OrderSide.Buy 0 =
      Except.ok sampleLimitOrder := rfl

/-! ## Behaviour of execute_transaction, shared by several claims -/

lemma executeTransaction_spec (o : Order) (tx : Transaction) :
    (executeTransaction o tx).1.filled = o.filled + tx.amount ∧
    (executeTransaction o tx).1.transactions = o.transactions ++ [tx] ∧
    (executeTransaction o tx).1.amount = o.amount ∧
    (o.amount < o.filled + tx.amount →
      (executeTransaction o tx).2 = Except.error () ∧
      (executeTransaction o tx).1.status = o.status) ∧
    (o.filled + tx.amount = o.amount →
      (executeTransaction o tx).2 = Except.ok true ∧
      (executeTransaction o tx).1.status = OrderStatus.Filled) ∧
    (o.filled + tx.amount < o.amount →
      (executeTransaction o tx).2 = Except.ok false ∧
      (executeTransaction o tx).1.status = o.status) := by
  unfold executeTransaction
  dsimp only
  split_ifs with h1 h2
  · exact ⟨rfl, rfl, rfl, fun _ => ⟨rfl, rfl⟩,
      fun h => False.elim (by linarith),
      fun h => False.elim (by linarith)⟩
  · exact ⟨rfl, rfl, rfl, fun h => False.elim (by linarith),
      fun _ => ⟨rfl, rfl⟩, fun h => False.elim (by linarith)⟩
  · exact ⟨rfl, rfl, rfl, fun h => False.elim (by linarith),
      fun h => absurd (by linarith : o.amount - (o.filled + tx.amount) = 0) h2,
      fun _ => ⟨rfl, rfl⟩⟩

/-! ## Run invariants for the indicator state machines -/

/-- State invariant of SMA after n feeds at distinct timestamps:
during warm-up the queue holds all n values and the average is
undefined; from the w-th feed on the queue holds w values and the
average is defined. -/
def SMAInv (w n : ℕ) (s : SMAState) : Prop :=
  (n < w → s.price_queue.length = n ∧ s.sma = none) ∧
  (w ≤ n → s.price_queue.length = w ∧ s.sma.isSome = true)

lemma smaFeed_inv {w : ℕ} (hw : 1 ≤ w) {s : SMAState} {t : ℤ} (v : ℚ) {n : ℕ}
    (ht : s.last_timestamp < t) (hs : SMAInv w n s) :
    SMAInv w (n + 1) (smaFeed w s t v).1 ∧ (smaFeed w s t v).1.last_timestamp ≤ t := by
  have hne : s.last_timestamp ≠ t := ne_of_lt ht
  rcases Nat.lt_or_ge (n + 1) w with hlt | hge
  · obtain ⟨hq, hsma⟩ := hs.1 (by omega)
    have hlen : (s.price_queue ++ [v]).length = n + 1 := by
      simp only [List.length_append, List.length_cons, List.length_nil, hq]
    have hcond : (s.price_queue ++ [v]).length < w := by omega
    simp only [smaFeed, if_neg hne, if_pos hcond]
    refine ⟨⟨fun _ => ⟨hlen, hsma⟩, fun hc => absurd hc (by omega)⟩, le_of_lt ht⟩
  · rcases Nat.eq_or_lt_of_le hge with heq | hgt
    · obtain ⟨hq, hsma⟩ := hs.1 (by omega)
      have hlen : (s.price_queue ++ [v]).length = n + 1 := by
        simp only [List.length_append, List.length_cons, List.length_nil, hq]
      have hc1 : ¬(s.price_queue ++ [v]).length < w := by omega
      have hc2 : (s.price_queue ++ [v]).length = w := by omega
      simp only [smaFeed, if_neg hne, if_neg hc1, if_pos hc2]
      exact ⟨⟨fun hc => absurd hc (by omega), fun _ => ⟨hc2, rfl⟩⟩, le_refl t⟩
    · obtain ⟨hq, hsome⟩ := hs.2 (by omega)
      obtain ⟨m, hm⟩ := Option.isSome_iff_exists.mp hsome
      obtain ⟨x, rest, hxr⟩ : ∃ x rest, s.price_queue = x :: rest := by
        cases hql : s.price_queue with
        | nil => rw [hql] at hq; simp at hq; omega
        | cons x rest => exact ⟨x, rest, rfl⟩
      have hrest : rest.length + 1 = w := by rw [hxr] at hq; simpa using hq
      simp only [smaFeed, if_neg hne, hxr, hm, List.cons_append]
      rw [if_neg (show ¬(x :: (rest ++ [v])).length < w by
            simp only [List.length_cons, List.length_append, List.length_nil]; omega),
          if_neg (show ¬(x :: (rest ++ [v])).length = w by
            simp only [List.length_cons, List.length_append, List.length_nil]; omega)]
      refine ⟨⟨fun hc => absurd hc (by omega), fun _ => ⟨?_, rfl⟩⟩, le_refl t⟩
      simp only [List.length_append, List.length_cons, List.length_nil]
      omega

lemma smaRunAux_inv {w : ℕ} (hw : 1 ≤ w) (vs : List ℚ) :
    ∀ (t : ℤ) (s : SMAState) (n : ℕ), s.last_timestamp < t → SMAInv w n s →
      SMAInv w (n + vs.length) (smaRunAux w t s vs) := by
  induction vs with
  | nil => intro t s n ht hs; simpa using hs
  | cons v vs ih =>
    intro t s n ht hs
    obtain ⟨hstep, hle⟩ := smaFeed_inv hw v ht hs
    have h2 := ih (t + 1) (smaFeed w s t v).1 (n + 1)
      (lt_of_le_of_lt hle (by linarith)) hstep
    simp only [smaRunAux, List.length_cons]
    have he : n + (vs.length + 1) = n + 1 + vs.length := by omega
    rw [he]
    exact h2

lemma smaRunSt_isSome {w : ℕ} (hw : 1 ≤ w) (vs : List ℚ) :
    (smaRunSt w vs).sma.isSome = true ↔ w ≤ vs.length := by
  have base : SMAInv w 0 SMAState.start :=
    ⟨fun _ => ⟨rfl, rfl⟩, fun hc => absurd hc (by omega)⟩
  have h := smaRunAux_inv hw vs 1 SMAState.start 0 (by decide) base
  rw [Nat.zero_add] at h
  constructor
  · intro hsome
    by_contra hc
    push_neg at hc
    have hnone := (h.1 hc).2
    rw [smaRunSt, hnone] at hsome
    simp at hsome
  · intro hle
    exact (h.2 hle).2

/-- State invariant of SMMA after n feeds at distinct timestamps:
the smoothed average is defined exactly once one feed has been
absorbed. -/
def SMMAInv (n : ℕ) (s : SMMAState) : Prop :=
  s.smma.isSome = true ↔ 1 ≤ n

lemma smmaFeed_inv {w : ℕ} {s : SMMAState} {t : ℤ} (v : ℚ) {n : ℕ}
    (ht : s.last_timestamp < t) (hs : SMMAInv n s) :
    SMMAInv (n + 1) (smmaFeed w s t v).1 ∧ (smmaFeed w s t v).1.last_timestamp ≤ t := by
  have hne : s.last_timestamp ≠ t := ne_of_lt ht
  cases hm : s.smma with
  | none =>
    simp only [smmaFeed, if_neg hne, hm]
    exact ⟨by simp [SMMAInv], le_refl t⟩
  | some m =>
    simp only [smmaFeed, if_neg hne, hm]
    exact ⟨by simp [SMMAInv], le_refl t⟩

lemma smmaRunAux_inv (w : ℕ) (vs : List ℚ) :
    ∀ (t : ℤ) (s : SMMAState) (n : ℕ), s.last_timestamp < t → SMMAInv n s →
      SMMAInv (n + vs.length) (smmaRunAux w t s vs) := by
  induction vs with
  | nil => intro t s n ht hs; simpa using hs
  | cons v vs ih =>
    intro t s n ht hs
    obtain ⟨hstep, hle⟩ := smmaFeed_inv v ht hs
    have h2 := ih (t + 1) (smmaFeed w s t v).1 (n + 1)
      (lt_of_le_of_lt hle (by linarith)) hstep
    simp only [smmaRunAux, List.length_cons]
    have he : n + (vs.length + 1) = n + 1 + vs.length := by omega
    rw [he]
    exact h2

lemma smmaRunSt_isSome (w : ℕ) (vs : List ℚ) :
    (smmaRunSt w vs).smma.isSome = true ↔ 1 ≤ vs.length := by
  have base : SMMAInv 0 SMMAState.start := by simp [SMMAInv, SMMAState.start]
  have h := smmaRunAux_inv w vs 1 SMMAState.start 0 (by decide) base
  rw [Nat.zero_add] at h
  exact h

/-- State invariant of EMA on the feed list vs: during warm-up the
queue holds all of vs and the average is undefined; once seeded the
queue is the w-element suffix of vs and the stored value is the seed
average plus multiplier times the difference between the current
window sum and the seed window sum. -/
def EMAInv (w : ℕ) (vs : List ℚ) (s : EMAState) : Prop :=
  (vs.length < w → s.price_queue = vs ∧ s.ema = none) ∧
  (w ≤ vs.length → ∃ p, vs = p ++ s.price_queue ∧ s.price_queue.length = w ∧
    s.ema = some ((vs.take w).sum / (w : ℚ) +
      2 / (1 + (w : ℚ)) * (s.price_queue.sum - (vs.take w).sum)))

lemma emaFeed_inv {w : ℕ} (hw : 1 ≤ w) {s : EMAState} {t : ℤ} (v : ℚ) {vs : List ℚ}
    (ht : s.last_timestamp < t) (hs : EMAInv w vs s) :
    EMAInv w (vs ++ [v]) (emaFeed w s t v).1 ∧ (emaFeed w s t v).1.last_timestamp ≤ t := by
  have hne : s.last_timestamp ≠ t := ne_of_lt ht
  have hlenv : (vs ++ [v]).length = vs.length + 1 := by
    simp only [List.length_append, List.length_cons, List.length_nil]
  rcases Nat.lt_or_ge (vs.length + 1) w with hlt | hge
  · obtain ⟨hq, hema⟩ := hs.1 (by omega)
    have hlen : (s.price_queue ++ [v]).length = vs.length + 1 := by
      simp only [List.length_append, List.length_cons, List.length_nil, hq]
    have hcond : (s.price_queue ++ [v]).length < w := by omega
    simp only [emaFeed, if_neg hne, if_pos hcond]
    refine ⟨⟨fun _ => ⟨by rw [hq], hema⟩,
      fun hc => absurd hc (by omega)⟩, le_of_lt ht⟩
  · rcases Nat.eq_or_lt_of_le hge with heq | hgt
    · obtain ⟨hq, hema⟩ := hs.1 (by omega)
      have hlen : (s.price_queue ++ [v]).length = vs.length + 1 := by
        simp only [List.length_append, List.length_cons, List.length_nil, hq]
      have hc1 : ¬(s.price_queue ++ [v]).length < w := by omega
      have hc2 : (s.price_queue ++ [v]).length = w := by omega
      simp only [emaFeed, if_neg hne, if_neg hc1, if_pos hc2]
      refine ⟨⟨fun hc => absurd hc (by omega),
        fun _ => ⟨[], by simp [hq], hc2, ?_⟩⟩, le_refl t⟩
      have htake : (vs ++ [v]).take w = vs ++ [v] :=
        List.take_of_length_le (by omega)
      rw [htake, hq]
      congr 1
      ring
    · obtain ⟨p, hdec, hlen, hema⟩ := hs.2 (by omega)
      obtain ⟨x, rest, hxr⟩ : ∃ x rest, s.price_queue = x :: rest := by
        cases hql : s.price_queue with
        | nil => rw [hql] at hlen; simp at hlen; omega
        | cons x rest => exact ⟨x, rest, rfl⟩
      have hrest : rest.length + 1 = w := by rw [hxr] at hlen; simpa using hlen
      simp only [emaFeed, if_neg hne, hxr, hema, List.cons_append]
      rw [if_neg (show ¬(x :: (rest ++ [v])).length < w by
            simp only [List.length_cons, List.length_append, List.length_nil]; omega),
          if_neg (show ¬(x :: (rest ++ [v])).length = w by
            simp only [List.length_cons, List.length_append, List.length_nil]; omega)]
      refine ⟨⟨fun hc => absurd hc (by omega),
        fun _ => ⟨p ++ [x], ?_, ?_, ?_⟩⟩, le_refl t⟩
      · rw [hdec, hxr]
        simp
      · simp only [List.length_append, List.length_cons, List.length_nil]
        omega
      · have htake : (vs ++ [v]).take w = vs.take w :=
          List.take_append_of_le_length (by omega)
        rw [htake]
        congr 1
        simp only [List.sum_append, List.sum_cons, List.sum_nil]
        ring

lemma emaRunAux_inv {w : ℕ} (hw : 1 ≤ w) (r : List ℚ) :
    ∀ (t : ℤ) (s : EMAState) (vs : List ℚ), s.last_timestamp < t → EMAInv w vs s →
      EMAInv w (vs ++ r) (emaRunAux w t s r) := by
  induction r with
  | nil => intro t s vs ht hs; simpa using hs
  | cons v r ih =>
    intro t s vs ht hs
    obtain ⟨hstep, hle⟩ := emaFeed_inv hw v ht hs
    have h2 := ih (t + 1) (emaFeed w s t v).1 (vs ++ [v])
      (lt_of_le_of_lt hle (by linarith)) hstep
    have he : vs ++ v :: r = (vs ++ [v]) ++ r := by simp
    rw [he]
    simpa only [emaRunAux] using h2

lemma emaRunSt_inv {w : ℕ} (hw : 1 ≤ w) (vs : List ℚ) :
    EMAInv w vs (emaRunSt w vs) := by
  have base : EMAInv w [] EMAState.start :=
    ⟨fun _ => ⟨rfl, rfl⟩, fun hc => absurd hc (by simp; omega)⟩
  have h := emaRunAux_inv hw vs 1 EMAState.start [] (by decide) base
  simpa using h

lemma emaRunSt_isSome {w : ℕ} (hw : 1 ≤ w) (vs : List ℚ) :
    (emaRunSt w vs).ema.isSome = true ↔ w ≤ vs.length := by
  have h := emaRunSt_inv hw vs
  constructor
  · intro hsome
    by_contra hc
    push_neg at hc
    have hnone := (h.1 hc).2
    rw [hnone] at hsome
    simp at hsome
  · intro hle
    obtain ⟨p, -, -, hema⟩ := h.2 hle
    rw [hema]
    rfl

/-- State invariant of Sigma on the feed list vs, relative to the
square root function f, holding as long as no update has raised:
the square queue mirrors the value queue, during warm-up the queues
hold all of vs and sums and sigma are undefined, and once the window
is full the queues hold the w-element suffix of vs, the running sums
are the sums over that window, and sigma is f applied to the
unnormalised expression over those sums. -/
def SigmaInv (f : ℚ → ℚ) (w : ℕ) (vs : List ℚ) (s : SigmaState) : Prop :=
  s.price_queue_sq = s.price_queue.map (fun x => x ^ 2) ∧
  (vs.length < w → s.price_queue = vs ∧ s.price_sum = none ∧
    s.price_sum_sq = none ∧ s.sigma = none) ∧
  (w ≤ vs.length → ∃ p, vs = p ++ s.price_queue ∧ s.price_queue.length = w ∧
    s.price_sum = some s.price_queue.sum ∧
    s.price_sum_sq = some (s.price_queue.map (fun x => x ^ 2)).sum ∧
    s.sigma = some (f (((s.price_queue.map (fun x => x ^ 2)).sum -
      s.price_queue.sum ^ 2) / ((w : ℚ) - 1))))

lemma sigmaFeed_inv (f : ℚ → ℚ) {w : ℕ} (hw : 1 ≤ w) {s : SigmaState} {t : ℤ}
    (v : ℚ) {vs : List ℚ} (ht : s.last_timestamp < t) (hs : SigmaInv f w vs s)
    (hok : (sigmaFeed f w s t v).2 ≠ Except.error ()) :
    SigmaInv f w (vs ++ [v]) (sigmaFeed f w s t v).1 ∧
    (sigmaFeed f w s t v).1.last_timestamp ≤ t := by
  have hne : s.last_timestamp ≠ t := ne_of_lt ht
  have hlenv : (vs ++ [v]).length = vs.length + 1 := by
    simp only [List.length_append, List.length_cons, List.length_nil]
  obtain ⟨hmir, hwarm, hfull⟩ := hs
  have hqeq : ¬(s.price_queue ++ [v]).length ≠
      (s.price_queue_sq ++ [v ^ 2]).length := by
    simp only [List.length_append, List.length_cons, List.length_nil, hmir,
      List.length_map, ne_eq, not_not]
  rcases Nat.lt_or_ge (vs.length + 1) w with hlt | hge
  · obtain ⟨hq, hps, hpss, hsg⟩ := hwarm (by omega)
    have hlen : (s.price_queue ++ [v]).length = vs.length + 1 := by
      simp only [List.length_append, List.length_cons, List.length_nil, hq]
    have hcond : (s.price_queue ++ [v]).length < w := by omega
    simp only [sigmaFeed, if_neg hne, if_neg hqeq, if_pos hcond]
    refine ⟨⟨by simp [hmir, hq], fun _ => ⟨by rw [hq], hps, hpss, hsg⟩,
      fun hc => absurd hc (by omega)⟩, le_refl t⟩
  · rcases Nat.eq_or_lt_of_le hge with heq | hgt
    · obtain ⟨hq, hps, hpss, hsg⟩ := hwarm (by omega)
      have hlen : (s.price_queue ++ [v]).length = vs.length + 1 := by
        simp only [List.length_append, List.length_cons, List.length_nil, hq]
      have hc1 : ¬(s.price_queue ++ [v]).length < w := by omega
      have hc2 : (s.price_queue ++ [v]).length = w := by omega
      simp only [sigmaFeed, if_neg hne, if_neg hqeq, if_neg hc1, if_pos hc2] at hok ⊢
      split_ifs at hok ⊢ with hrad
      · exact absurd rfl hok
      · refine ⟨⟨by simp [hmir], fun hc => absurd hc (by omega),
          fun _ => ⟨[], by simp [hq], hc2, rfl, by simp [hmir], by simp [hmir]⟩⟩,
          le_refl t⟩
    · obtain ⟨p, hdec, hlen, hps, hpss, hsg⟩ := hfull (by omega)
      obtain ⟨x, rest, hxr⟩ : ∃ x rest, s.price_queue = x :: rest := by
        cases hql : s.price_queue with
        | nil => rw [hql] at hlen; simp at hlen; omega
        | cons x rest => exact ⟨x, rest, rfl⟩
      have hrest : rest.length + 1 = w := by rw [hxr] at hlen; simpa using hlen
      have hmir2 : s.price_queue_sq = x ^ 2 :: rest.map (fun y => y ^ 2) := by
        rw [hmir, hxr]; simp
      have hps2 : (x :: rest).sum + (v - x) = (rest ++ [v]).sum := by
        simp only [List.sum_cons, List.sum_append, List.sum_nil]; ring
      have hpss2 : ((x :: rest).map (fun y => y ^ 2)).sum + (v ^ 2 - x ^ 2) =
          ((rest ++ [v]).map (fun y => y ^ 2)).sum := by
        simp only [List.map_cons, List.map_append, List.map_nil, List.sum_cons,
          List.sum_append, List.sum_nil]; ring
      simp only [sigmaFeed, if_neg hne, hxr, hmir2, hps, hpss,
        List.cons_append] at hok ⊢
      rw [if_neg (show ¬(x :: (rest ++ [v])).length ≠
            (x ^ 2 :: (rest.map (fun y => y ^ 2) ++ [v ^ 2])).length by
            simp only [List.length_cons, List.length_append, List.length_nil,
              List.length_map, ne_eq, not_not]),
          if_neg (show ¬(x :: (rest ++ [v])).length < w by
            simp only [List.length_cons, List.length_append, List.length_nil]; omega),
          if_neg (show ¬(x :: (rest ++ [v])).length = w by
            simp only [List.length_cons, List.length_append, List.length_nil];
            omega)] at hok ⊢
      split_ifs at hok ⊢ with hrad
      · exact absurd rfl hok
      · refine ⟨⟨by simp, fun hc => absurd hc (by omega),
          fun _ => ⟨p ++ [x], ?_, ?_, ?_, ?_, ?_⟩⟩, le_refl t⟩
        · rw [hdec, hxr]
          simp
        · simp only [List.length_append, List.length_cons, List.length_nil]
          omega
        · rw [hps2]
        · rw [hpss2]
        · rw [hps2, hpss2]

lemma sigmaRunAux_inv (f : ℚ → ℚ) {w : ℕ} (hw : 1 ≤ w) (r : List ℚ) :
    ∀ (t : ℤ) (s : SigmaState) (vs : List ℚ), s.last_timestamp < t →
      SigmaInv f w vs s → Except.error () ∉ (sigmaRunAux f w t s r).2 →
      SigmaInv f w (vs ++ r) (sigmaRunAux f w t s r).1 := by
  induction r with
  | nil => intro t s vs ht hs _; simpa using hs
  | cons v r ih =>
    intro t s vs ht hs hok
    simp only [sigmaRunAux, List.mem_cons, not_or] at hok
    obtain ⟨hok1, hok2⟩ := hok
    obtain ⟨hstep, hle⟩ := sigmaFeed_inv f hw v ht hs (fun hc => hok1 hc.symm)
    have h2 := ih (t + 1) (sigmaFeed f w s t v).1 (vs ++ [v])
      (lt_of_le_of_lt hle (by linarith)) hstep hok2
    have he : vs ++ v :: r = (vs ++ [v]) ++ r := by simp
    rw [he]
    simpa only [sigmaRunAux] using h2

lemma sigmaRun_inv (f : ℚ → ℚ) {w : ℕ} (hw : 1 ≤ w) (vs : List ℚ)
    (hok : Except.error () ∉ (sigmaRun f w vs).2) :
    SigmaInv f w vs (sigmaRun f w vs).1 := by
  have base : SigmaInv f w [] SigmaState.start :=
    ⟨rfl, fun _ => ⟨rfl, rfl, rfl, rfl⟩,
     fun hc => absurd hc (by simp only [List.length_nil]; omega)⟩
  have h := sigmaRunAux_inv f hw vs 1 SigmaState.start [] (by decide) base hok
  simpa using h

/-- State invariant of ATR after n calls of get at distinct
timestamps: the first call seeds the previous close only; from then
on the true-range deque grows by one per call up to its maxlen
w + 1, and the smoothed value is defined exactly once w true ranges
have been absorbed, at call w + 1. -/
def ATRInv (w n : ℕ) (s : ATRState) : Prop :=
  (n = 0 → s.previous_close = none ∧ s.tr_queue = [] ∧ s.atr = none) ∧
  (1 ≤ n → s.previous_close.isSome = true ∧
    s.tr_queue.length = min (n - 1) (w + 1) ∧
    (s.atr.isSome = true ↔ w + 1 ≤ n))

lemma atrFeed_inv {w : ℕ} (hw : 1 ≤ w) {s : ATRState} {t : ℤ} (v : ℚ) {n : ℕ}
    (ht : s.last_timestamp < t) (hn1 : 1 ≤ n) (hs : ATRInv w n s) :
    ATRInv w (n + 1) (atrFeed w s t v).1 ∧ (atrFeed w s t v).1.last_timestamp ≤ t := by
  obtain ⟨hprevS, hlenq, hatr⟩ := hs.2 hn1
  have hne : s.last_timestamp ≠ t := ne_of_lt ht
  simp only [atrFeed, if_neg hne]
  by_cases hfull : s.tr_queue.length = w + 1
  · have hn2 : w + 2 ≤ n := by omega
    obtain ⟨m, hm⟩ := Option.isSome_iff_exists.mp (hatr.mpr (by omega))
    have hql : (s.tr_queue.tail ++ [v]).length = w + 1 := by
      simp only [List.length_append, List.length_cons, List.length_nil,
        List.length_tail, hfull]
      omega
    rw [if_pos hfull, if_neg (by omega), if_neg (by omega)]
    simp only [hm]
    dsimp only [ATRInv]
    refine ⟨⟨fun hc => absurd hc (by omega),
      fun _ => ⟨hprevS, ?_, ⟨fun _ => by omega, fun _ => rfl⟩⟩⟩, le_refl t⟩
    rw [hql]
    omega
  · have hL : s.tr_queue.length = n - 1 := by omega
    have hlen2 : (s.tr_queue ++ [v]).length = n := by
      simp only [List.length_append, List.length_cons, List.length_nil, hL]
      omega
    rw [if_neg hfull]
    by_cases hc1 : (s.tr_queue ++ [v]).length < w
    · rw [if_pos hc1]
      dsimp only [ATRInv]
      refine ⟨⟨fun hc => absurd hc (by omega),
        fun _ => ⟨hprevS, ?_, ?_⟩⟩, le_refl t⟩
      · rw [hlen2]
        omega
      · rw [hatr]
        omega
    · rw [if_neg hc1]
      by_cases hc2 : (s.tr_queue ++ [v]).length = w
      · rw [if_pos hc2]
        dsimp only [ATRInv]
        refine ⟨⟨fun hc => absurd hc (by omega),
          fun _ => ⟨hprevS, ?_, ⟨fun _ => by omega, fun _ => rfl⟩⟩⟩, le_refl t⟩
        rw [hlen2]
        omega
      · have hn3 : n = w + 1 := by omega
        obtain ⟨m, hm⟩ := Option.isSome_iff_exists.mp (hatr.mpr (by omega))
        rw [if_neg hc2]
        simp only [hm]
        dsimp only [ATRInv]
        refine ⟨⟨fun hc => absurd hc (by omega),
          fun _ => ⟨hprevS, ?_, ⟨fun _ => by omega, fun _ => rfl⟩⟩⟩, le_refl t⟩
        rw [hlen2]
        omega

lemma atrGet_inv {w : ℕ} (hw : 1 ≤ w) {s : ATRState} {t : ℤ} (x : ℚ × ℚ × ℚ) {n : ℕ}
    (ht : s.last_timestamp < t) (hs : ATRInv w n s) :
    ATRInv w (n + 1) (atrGet w s t x).1 ∧ (atrGet w s t x).1.last_timestamp ≤ t := by
  rcases Nat.eq_zero_or_pos n with hn0 | hn1
  · subst hn0
    obtain ⟨hprev, hq, hatr⟩ := hs.1 rfl
    simp only [atrGet, hprev]
    refine ⟨⟨fun hc => absurd hc (by omega), fun _ => ⟨rfl, ?_, ?_⟩⟩, le_of_lt ht⟩
    · simp [hq]
    · rw [hatr]
      simp only [Option.isSome_none]
      constructor
      · intro hc
        exact absurd hc (by simp)
      · intro hc
        exact absurd hc (by omega)
  · obtain ⟨pc, hpc⟩ := Option.isSome_iff_exists.mp (hs.2 hn1).1
    simp only [atrGet, hpc]
    exact atrFeed_inv hw _ ht hn1 hs

lemma atrRunAux_inv {w : ℕ} (hw : 1 ≤ w) (ticks : List (ℚ × ℚ × ℚ)) :
    ∀ (t : ℤ) (s : ATRState) (n : ℕ), s.last_timestamp < t → ATRInv w n s →
      ATRInv w (n + ticks.length) (atrRunAux w t s ticks) := by
  induction ticks with
  | nil => intro t s n ht hs; simpa using hs
  | cons x ticks ih =>
    intro t s n ht hs
    obtain ⟨hstep, hle⟩ := atrGet_inv hw x ht hs
    have h2 := ih (t + 1) (atrGet w s t x).1 (n + 1)
      (lt_of_le_of_lt hle (by linarith)) hstep
    simp only [atrRunAux, List.length_cons]
    have he : n + (ticks.length + 1) = n + 1 + ticks.length := by omega
    rw [he]
    exact h2

lemma atrRunSt_isSome {w : ℕ} (hw : 1 ≤ w) (ticks : List (ℚ × ℚ × ℚ)) :
    (atrRunSt w ticks).atr.isSome = true ↔ w + 1 ≤ ticks.length := by
  have base : ATRInv w 0 ATRState.start :=
    ⟨fun _ => ⟨rfl, rfl, rfl⟩, fun hc => absurd hc (by omega)⟩
  have h := atrRunAux_inv hw ticks 1 ATRState.start 0 (by decide) base
  rw [Nat.zero_add] at h
  rcases Nat.eq_zero_or_pos ticks.length with h0 | h1
  · obtain ⟨-, -, hatr⟩ := h.1 h0
    show (atrRunAux w 1 ATRState.start ticks).atr.isSome = true ↔ w + 1 ≤ ticks.length
    rw [hatr, h0]
    simp
  · exact (h.2 h1).2.2

/-! ## Claim theorems -/

/-! ## Claim theorems -/

/-- C1: the claim asserts that a repeated update at an unchanged
timestamp leaves the internal buffers unchanged in every reachable
state, including warm-up.  The code violates this: during warm-up
the early return of SMA.get_feed and EMA.get_feed skips the
last_timestamp assignment, so a second call at the same timestamp is
not recognised as a repeat and appends the value to the buffer
again.  Feeding SMA(3) the value 5 at timestamp 1 and calling again
at timestamp 1 grows the price queue from length 1 to length 2; the
same happens for EMA(3). -/
theorem C1_warmup_guard_gap :
    (smaFeed 3 SMAState.start 1 5).1.price_queue.length = 1 ∧
    (smaFeed 3 (smaFeed 3 SMAState.start 1 5).1 1 5).1.price_queue.length = 2 ∧
    (emaFeed 3 EMAState.start 1 5).1.price_queue.length = 1 ∧
    (emaFeed 3 (emaFeed 3 EMAState.start 1 5).1 1 5).1.price_queue.length = 2 :=
  ⟨rfl, rfl, rfl, rfl⟩

/-- C2 counterexample: the claim requires every indicator with
window w to return undefined on each of the first w - 1 feeds, with
ATR the only exception.  SMMA(3) already returns a defined value
(the value itself) on its very first feed. -/
theorem C2_counterexample :
    (smmaFeed 3 SMMAState.start 1 5).2 = some 5 := rfl

/-- C2 amended: for SMA, EMA and Sigma with window w the output is
undefined for the first w - 1 feeds and defined from the w-th feed
onward (for Sigma as long as no update has raised on a negative
square root operand); SMMA, although constructed with a window size,
is defined from its very first feed; ATR is undefined for its first
w feeds and defined from feed w + 1, the first feed only seeding the
previous close. -/
theorem C2_amended (f : ℚ → ℚ) (w : ℕ) (hw : 1 ≤ w) (vs : List ℚ)
    (ticks : List (ℚ × ℚ × ℚ)) :
    ((smaRunSt w vs).sma.isSome = true ↔ w ≤ vs.length) ∧
    ((emaRunSt w vs).ema.isSome = true ↔ w ≤ vs.length) ∧
    ((smmaRunSt w vs).smma.isSome = true ↔ 1 ≤ vs.length) ∧
    (2 ≤ w → Except.error () ∉ (sigmaRun f w vs).2 →
      ((sigmaRun f w vs).1.sigma.isSome = true ↔ w ≤ vs.length)) ∧
    ((atrRunSt w ticks).atr.isSome = true ↔ w + 1 ≤ ticks.length) := by
  refine ⟨smaRunSt_isSome hw vs, emaRunSt_isSome hw vs, smmaRunSt_isSome w vs,
    fun hw2 hok => ?_, atrRunSt_isSome hw ticks⟩
  have h := sigmaRun_inv f hw vs hok
  constructor
  · intro hsome
    by_contra hc
    push_neg at hc
    have hnone := (h.2.1 hc).2.2.2
    rw [hnone] at hsome
    simp at hsome
  · intro hle
    obtain ⟨p, -, -, -, -, hsg⟩ := h.2.2 hle
    rw [hsg]
    rfl

/-- The run of Sigma with window 2 on the feeds 0, 1 raises no
error: its outputs are ok None and ok (some 0). -/
lemma sigmaRun_noerror_01 : Except.error () ∉ (sigmaRun id 2 [0, 1]).2 := by
  have hout : (sigmaRun id 2 [0, 1]).2 = [Except.ok none, Except.ok (some 0)] := by
    norm_num [sigmaRun, sigmaRunAux, sigmaFeed, SigmaState.start]
  rw [hout]
  simp

/-- Witness for C2 amended at window 2 on the feeds 0, 1 (and three
identical ticks for ATR). -/
theorem C2_amended_witness :
    (smaRunSt 2 [0, 1]).sma.isSome = true ∧
    (emaRunSt 2 [0, 1]).ema.isSome = true ∧
    (smmaRunSt 2 [0, 1]).smma.isSome = true ∧
    (sigmaRun id 2 [0, 1]).1.sigma.isSome = true ∧
    (atrRunSt 2 [(1, 1, 1), (1, 1, 1), (1, 1, 1)]).atr.isSome = true := by
  have h := C2_amended id 2 (by norm_num) [0, 1] [(1, 1, 1), (1, 1, 1), (1, 1, 1)]
  exact ⟨h.1.mpr (by norm_num), h.2.1.mpr (by norm_num), h.2.2.1.mpr (by norm_num),
    (h.2.2.2.1 (by norm_num) sigmaRun_noerror_01).mpr (by norm_num),
    h.2.2.2.2.mpr (by norm_num)⟩

/-- C3: a Limit order of amount 10 accepts a transaction of amount 4
(returns False, filled becomes 4, status not Filled), then a
transaction of amount 6 (returns True, filled becomes 10, status
Filled), and any further transaction of positive amount makes the
assert amount - filled >= 0 fail, an unrecoverable error. -/
theorem C3_order_lifecycle (a : ℚ) (ha : 0 < a) :
    mkOrder ("ETH") ("BTC") 1 10 OrderType.Limit OrderSide.Buy 0 =
      Except.ok sampleLimitOrder ∧
    (executeTransaction sampleLimitOrder tx4).2 = Except.ok false ∧
    (executeTransaction sampleLimitOrder tx4).1.filled = 4 ∧
    (executeTransaction sampleLimitOrder tx4).1.status ≠ OrderStatus.Filled ∧
    (executeTransaction (executeTransaction sampleLimitOrder tx4).1 tx6).2 =
      Except.ok true ∧
    (executeTransaction (executeTransaction sampleLimitOrder tx4).1 tx6).1.filled = 10 ∧
    (executeTransaction (executeTransaction sampleLimitOrder tx4).1 tx6).1.status =
      OrderStatus.Filled ∧
    (executeTransaction
      (executeTransaction (executeTransaction sampleLimitOrder tx4).1 tx6).1
      (generateTransaction sampleLimitOrder a 1 3)).2 = Except.error () := by
  have h1 : executeTransaction sampleLimitOrder tx4 =
      ({ sampleLimitOrder with
          filled := 4,
          transactions := [tx4] }, Except.ok false) := by
    norm_num [executeTransaction, sampleLimitOrder, tx4, generateTransaction]
  have h2 : executeTransaction
      { sampleLimitOrder with
          filled := 4,
          transactions := [tx4] } tx6 =
      ({ sampleLimitOrder with
          status := OrderStatus.Filled,
          filled := 10,
          transactions := [tx4, tx6] }, Except.ok true) := by
    norm_num [executeTransaction, sampleLimitOrder, tx4, tx6, generateTransaction]
  refine ⟨mkOrder_sampleLimit, by rw [h1], by rw [h1], by rw [h1]; simp [sampleLimitOrder],
    by rw [h1, h2], by rw [h1, h2], by rw [h1, h2], ?_⟩
  rw [h1, h2]
  refine ((executeTransaction_spec _ _).2.2.2.1 ?_).1
  show (10 : ℚ) < 10 + a
  linarith

/-- Witness for C3 at the concrete amount 1. -/
theorem C3_witness :
    (executeTransaction
      (executeTransaction (executeTransaction sampleLimitOrder tx4).1 tx6).1
      (generateTransaction sampleLimitOrder 1 1 3)).2 = Except.error () :=
  (C3_order_lifecycle 1 (by norm_num)).2.2.2.2.2.2.2

/-- C4 counterexample: the claim asserts Filled is terminal, so no
operation may change the status of a Filled order.  Filling the
sample Limit order of amount 10 with one transaction of amount 10
makes its status Filled, and cancel then changes that status to
Cancelled. -/
theorem C4_counterexample :
    mkOrder ("ETH") ("BTC") 1 10 OrderType.Limit OrderSide.Buy 0 =
      Except.ok sampleLimitOrder ∧
    (executeTransaction sampleLimitOrder
      (generateTransaction sampleLimitOrder 10 1 1)).1.status = OrderStatus.Filled ∧
    (cancelOrder (executeTransaction sampleLimitOrder
      (generateTransaction sampleLimitOrder 10 1 1)).1).status = OrderStatus.Cancelled ∧
    OrderStatus.Cancelled ≠ OrderStatus.Filled := by
  have h : executeTransaction sampleLimitOrder
      (generateTransaction sampleLimitOrder 10 1 1) =
      ({ sampleLimitOrder with
          status := OrderStatus.Filled,
          filled := 10,
          transactions := [generateTransaction sampleLimitOrder 10 1 1] },
       Except.ok true) := by
    norm_num [executeTransaction, sampleLimitOrder, generateTransaction]
  exact ⟨mkOrder_sampleLimit, by rw [h], by rw [h]; rfl, by simp⟩

/-- C4 amended: Filled and Cancelled are not terminal.  cancel
unconditionally sets the status of any order to Cancelled, and open
succeeds on any non-Market order regardless of its current status,
setting it to Open; only the claim that cancel moves an order to
Cancelled holds, and it does so from every state. -/
theorem C4_amended (o : Order) :
    (cancelOrder o).status = OrderStatus.Cancelled ∧
    (o.type ≠ OrderType.Market →
      openOrder o = Except.ok { o with status := OrderStatus.Open }) := by
  refine ⟨rfl, fun h => ?_⟩
  simp [openOrder, h]

/-- Witness for C4 amended at the sample Limit order. -/
theorem C4_amended_witness :
    (cancelOrder sampleLimitOrder).status = OrderStatus.Cancelled ∧
    openOrder sampleLimitOrder =
      Except.ok { sampleLimitOrder with status := OrderStatus.Open } :=
  ⟨(C4_amended sampleLimitOrder).1,
   (C4_amended sampleLimitOrder).2 (by simp [sampleLimitOrder])⟩

/-- C5 counterexample: the Transaction constructor accepts a
negative amount, and executing such a transaction on a fresh Limit
order of amount 10 drives filled to -5 with no error at all, so the
invariant 0 <= filled fails under operations accepted by the
interface. -/
theorem C5_counterexample :
    mkOrder ("ETH") ("BTC") 1 10 OrderType.Limit OrderSide.Buy 0 =
      Except.ok sampleLimitOrder ∧
    (executeTransaction sampleLimitOrder
      (generateTransaction sampleLimitOrder (-5) 1 1)).2 = Except.ok false ∧
    (executeTransaction sampleLimitOrder
      (generateTransaction sampleLimitOrder (-5) 1 1)).1.filled = -5 ∧
    ((-5 : ℚ) < 0) := by
  have h : executeTransaction sampleLimitOrder
      (generateTransaction sampleLimitOrder (-5) 1 1) =
      ({ sampleLimitOrder with
          filled := -5,
          transactions := [generateTransaction sampleLimitOrder (-5) 1 1] },
       Except.ok false) := by
    norm_num [executeTransaction, sampleLimitOrder, generateTransaction]
  exact ⟨mkOrder_sampleLimit, by rw [h], by rw [h], by norm_num⟩

/-- C5 amended: for every order reachable through the interface,
with every executed transaction of nonnegative amount and every
call returning without an assertion failure, the invariant
0 <= filled <= amount holds. -/
theorem C5_amended (o : Order) (h : ReachableOrder o) :
    0 ≤ o.filled ∧ o.filled ≤ o.amount := by
  induction h with
  | init qn bn p a ty sd ts o hmk =>
    unfold mkOrder at hmk
    split_ifs at hmk with h1 h2
    injection hmk with h3
    subst h3
    refine ⟨le_refl 0, ?_⟩
    show (0 : ℚ) ≤ (a : ℚ)
    exact_mod_cast not_lt.mp h1
  | cancelStep o hR ih => simpa [cancelOrder] using ih
  | openStep o o2 hR hopen ih =>
    unfold openOrder at hopen
    split_ifs at hopen with h1
    injection hopen with h3
    subst h3
    simpa using ih
  | feeStep o asset amt hR ih => simpa [payFee] using ih
  | execStep o tx hR hamt hok ih =>
    obtain ⟨hf, -, hamount, herr, -, -⟩ := executeTransaction_spec o tx
    by_cases hc : o.amount < o.filled + tx.amount
    · exact absurd (herr hc).1 hok
    · push_neg at hc
      rw [hf, hamount]
      exact ⟨by linarith [ih.1], hc⟩

/-- Witness for C5 amended at the freshly constructed sample Limit
order. -/
theorem C5_amended_witness :
    0 ≤ sampleLimitOrder.filled ∧ sampleLimitOrder.filled ≤ sampleLimitOrder.amount :=
  C5_amended sampleLimitOrder
    (ReachableOrder.init ("ETH") ("BTC") 1 10 OrderType.Limit OrderSide.Buy 0
      sampleLimitOrder mkOrder_sampleLimit)

/-- C6 counterexample: with window 2 the multiplier is 2/3; on the
feed sequence 1, 2, 3 the buffered update of the source yields
3/2 + (3 - 1) * 2/3 = 17/6, while the standard bufferless recurrence
with identical seeding yields 3/2 + (3 - 3/2) * 2/3 = 5/2, so the
evicted buffer value does affect the output. -/
theorem C6_counterexample :
    (emaRunSt 2 [1, 2, 3]).ema = some (17 / 6) ∧
    (stdEmaRun 2 [1, 2, 3]).ema = some (5 / 2) ∧
    (17 / 6 : ℚ) ≠ 5 / 2 := by
  refine ⟨?_, ?_, by norm_num⟩
  · norm_num [emaRunSt, emaRunAux, emaFeed, EMAState.start]
  · norm_num [stdEmaRun, stdEmaFeed, List.foldl]

/-- C6 amended: the buffered EMA rule depends on the evicted value:
after seeding, the stored value equals the seed average plus the
multiplier times the difference between the current window sum and
the seed window sum, where the window is the w-element suffix of the
feeds held by the buffer.  This is not the bufferless standard
recurrence (the counterexample exhibits differing outputs), so
dropping the buffer in favour of ema + (new - ema) * k changes
behaviour. -/
theorem C6_amended (w : ℕ) (hw : 1 ≤ w) (vs : List ℚ) (hlen : w ≤ vs.length) :
    ∃ p : List ℚ, vs = p ++ (emaRunSt w vs).price_queue ∧
      (emaRunSt w vs).price_queue.length = w ∧
      (emaRunSt w vs).ema = some ((vs.take w).sum / (w : ℚ) +
        2 / (1 + (w : ℚ)) * ((emaRunSt w vs).price_queue.sum - (vs.take w).sum)) :=
  (emaRunSt_inv hw vs).2 hlen

/-- Witness for C6 amended at window 1 on the feeds 2, 3. -/
theorem C6_amended_witness :
    ∃ p : List ℚ, ([2, 3] : List ℚ) = p ++ (emaRunSt 1 [2, 3]).price_queue ∧
      (emaRunSt 1 [2, 3]).price_queue.length = 1 ∧
      (emaRunSt 1 [2, 3]).ema = some ((([2, 3] : List ℚ).take 1).sum / ((1 : ℕ) : ℚ) +
        2 / (1 + ((1 : ℕ) : ℚ)) *
          ((emaRunSt 1 [2, 3]).price_queue.sum - (([2, 3] : List ℚ).take 1).sum)) :=
  C6_amended 1 (by norm_num) [2, 3] (by norm_num)

/-- C7: feeding the closes 1, ..., 15 at timestamps 1, ..., 15 fills
the 14-sample window, and at the 15th feed the source computes the
oscillator (it stores the rounded value 107.69 in the attribute
stochastic_oscillator), yet the returned pair is still
(None, None) because the returned attribute percent_k is never
assigned anywhere in the class. -/
theorem C7_percent_k_never_defined :
    (stochRun [1, 2, 3, 4, 5, 6, 7, 8, 9, 10, 11, 12, 13, 14, 15]).2.getLast? =
      some (Except.ok (none, none)) ∧
    (stochRun [1, 2, 3, 4, 5, 6, 7, 8, 9, 10, 11, 12, 13, 14, 15]).1.percent_k = none ∧
    (stochRun [1, 2, 3, 4, 5, 6, 7, 8, 9, 10, 11, 12, 13, 14, 15]).1.stochastic_oscillator =
      some (10769 / 100) := by
  norm_num [stochRun, stochRunAux, stochFeed, StochState.start, minList, maxList,
    pyRound2, roundHalfEven, min_def, max_def, List.foldl]

/-- C8 counterexample: the claim asserts construction with a
negative price fails for both order types, but the price assert is
guarded by the order type being Limit, so a Market order with price
-1 is constructed successfully. -/
theorem C8_counterexample :
    mkOrder ("ETH") ("BTC") (-1) 5 OrderType.Market OrderSide.Buy 0 =
      Except.ok sampleMarketOrder ∧
    sampleMarketOrder.price = -1 ∧
    ((-1 : ℚ) < 0) :=
  ⟨rfl, rfl, by norm_num⟩

/-- C8 amended: construction fails fast exactly when the amount is
negative, or when the order type is Limit and the price is
negative; in particular a Market order with a negative price is
constructed successfully. -/
theorem C8_amended (qn bn : String) (p : ℚ) (a : ℤ) (ty : OrderType)
    (sd : OrderSide) (ts : ℤ) :
    mkOrder qn bn p a ty sd ts = Except.error () ↔
      (a < 0 ∨ (ty = OrderType.Limit ∧ p < 0)) := by
  unfold mkOrder
  split_ifs with h1 h2
  · simp [h1]
  · simp [h2]
  · simp [h1, h2]

/-- Witness for C8 amended: a Market order with price -1 and amount
5 does not fail. -/
theorem C8_amended_witness :
    mkOrder ("ETH") ("BTC") (-1) 5 OrderType.Market OrderSide.Buy 0 ≠
      Except.error () := by
  intro hc
  have h := (C8_amended ("ETH") ("BTC") (-1) 5 OrderType.Market OrderSide.Buy 0).mp hc
  rcases h with h | ⟨h, -⟩
  · norm_num at h
  · exact absurd h (by simp)

/-- C9 counterexample: the claim asserts that for every sequence of
at least w feeds the output equals the square root of the
unnormalised expression.  With window 2 and feeds 1, 1 the operand
is (2 - 4) / 1 = -2, math.sqrt raises ValueError, and the second
feed produces no output at all (the stored sigma stays None). -/
theorem C9_counterexample :
    (sigmaRun id 2 [1, 1]).2 = [Except.ok none, Except.error ()] ∧
    (sigmaRun id 2 [1, 1]).1.sigma = none := by
  norm_num [sigmaRun, sigmaRunAux, sigmaFeed, SigmaState.start]

/-- C9 amended: once at least w feeds have been absorbed and no
update has raised on a negative square root operand, the running
sums of Sigma are exactly the sums of the values and squared values
in the current w-element window (a suffix of the feeds), and the
stored output is the square root function applied to
(sum of squares - (sum)^2) / (w - 1), the unnormalised form with
the squared sum not divided by n. -/
theorem C9_amended (f : ℚ → ℚ) (w : ℕ) (hw : 2 ≤ w) (vs : List ℚ)
    (hlen : w ≤ vs.length) (hok : Except.error () ∉ (sigmaRun f w vs).2) :
    ∃ p : List ℚ, vs = p ++ (sigmaRun f w vs).1.price_queue ∧
      (sigmaRun f w vs).1.price_queue.length = w ∧
      (sigmaRun f w vs).1.price_sum = some (sigmaRun f w vs).1.price_queue.sum ∧
      (sigmaRun f w vs).1.price_sum_sq =
        some ((sigmaRun f w vs).1.price_queue.map (fun x => x ^ 2)).sum ∧
      (sigmaRun f w vs).1.sigma = some (f
        ((((sigmaRun f w vs).1.price_queue.map (fun x => x ^ 2)).sum -
          (sigmaRun f w vs).1.price_queue.sum ^ 2) / ((w : ℚ) - 1))) :=
  (sigmaRun_inv f (by omega) vs hok).2.2 hlen

/-- Witness for C9 amended at window 2 on the feeds 0, 1. -/
theorem C9_amended_witness :
    ∃ p : List ℚ, ([0, 1] : List ℚ) = p ++ (sigmaRun id 2 [0, 1]).1.price_queue ∧
      (sigmaRun id 2 [0, 1]).1.price_queue.length = 2 ∧
      (sigmaRun id 2 [0, 1]).1.price_sum =
        some (sigmaRun id 2 [0, 1]).1.price_queue.sum ∧
      (sigmaRun id 2 [0, 1]).1.price_sum_sq =
        some ((sigmaRun id 2 [0, 1]).1.price_queue.map (fun x => x ^ 2)).sum ∧
      (sigmaRun id 2 [0, 1]).1.sigma = some (id
        ((((sigmaRun id 2 [0, 1]).1.price_queue.map (fun x => x ^ 2)).sum -
          (sigmaRun id 2 [0, 1]).1.price_queue.sum ^ 2) / (((2 : ℕ) : ℚ) - 1))) :=
  C9_amended id 2 (by norm_num) [0, 1] (by norm_num) sigmaRun_noerror_01

/-- C10: on any order and transaction whose amount overfills the
order, execute_transaction signals the fatal assertion failure only
after filled has been increased and the transaction appended, and
the status is left as it was: the order is observably mutated
despite the fatal error. -/
theorem C10_execute_mutates_before_check (o : Order) (tx : Transaction)
    (h : o.amount < o.filled + tx.amount) :
    (executeTransaction o tx).2 = Except.error () ∧
    (executeTransaction o tx).1.filled = o.filled + tx.amount ∧
    (executeTransaction o tx).1.transactions = o.transactions ++ [tx] ∧
    (executeTransaction o tx).1.status = o.status := by
  obtain ⟨hf, htx, -, herr, -, -⟩ := executeTransaction_spec o tx
  exact ⟨(herr h).1, hf, htx, (herr h).2⟩

/-- Witness for C10: overfilling the fresh sample order of amount 10
with a transaction of amount 11. -/
theorem C10_witness :
    (executeTransaction sampleLimitOrder
      (generateTransaction sampleLimitOrder 11 1 1)).2 = Except.error () ∧
    (executeTransaction sampleLimitOrder
      (generateTransaction sampleLimitOrder 11 1 1)).1.filled =
      sampleLimitOrder.filled + (generateTransaction sampleLimitOrder 11 1 1).amount ∧
    (executeTransaction sampleLimitOrder
      (generateTransaction sampleLimitOrder 11 1 1)).1.transactions =
      sampleLimitOrder.transactions ++ [generateTransaction sampleLimitOrder 11 1 1] ∧
    (executeTransaction sampleLimitOrder
      (generateTransaction sampleLimitOrder 11 1 1)).1.status =
      sampleLimitOrder.status :=
  C10_execute_mutates_before_check sampleLimitOrder
    (generateTransaction sampleLimitOrder 11 1 1)
    (by norm_num [sampleLimitOrder, generateTransaction])

end Nyxar
